import Mathlib

/-!
Verification of the goauth OAuth 1.0a signing engine and token cache.

This file is a shallow embedding, in Lean 4, of the parts of the goauth
repository that the verified properties talk about:

* the in-memory token cache (src/lru.go): `token`, `tokenCacheItem`,
  `tokenCache`, `newTokenCache`, `tokenCache.size`, `tokenCache.getToken`,
  `tokenCache.addToken`, `tokenCache.trimCache`;
* the signature engine (src/oauth1.go): `queryEscape` (the model of the
  Go standard library function url.QueryEscape used throughout),
  `createBaseString`, `createMethodSignature`, `toParamList`, together with
  executable models of the library collaborators HMAC-SHA1
  (crypto/hmac + crypto/sha1) and standard base64 (encoding/base64);
* the flow controller (src/oauth1.go): `GetRedirectURL` and
  `ProcessResponse`, with the three HTTP legs abstracted by an explicit
  `netOracle` that supplies the outcome of each network round trip.

Modelling conventions:

* Go strings handled by the signature engine are byte sequences; they are
  modelled as `List Nat` (one Nat per byte, each < 256 for meaningful
  inputs).  Cache keys and flow-controller strings only need equality and
  concatenation and are modelled as Lean `String`.
* Wall-clock time is modelled by an explicit integer `now` argument
  (seconds); `time.Now()` at a call site becomes that argument.  The age
  comparison in trimCache compares integer seconds, matching the float
  comparison of the source at integral ages.
* The doubly linked recency list plus map of src/lru.go is modelled as a
  single `List` of entries, most recently used first; the Go map is the
  set of entries of that list keyed by `tok.token` (the source keeps the
  two structures in bijection: every insertion, removal and move is
  performed on both under one lock).
* Fallible operations return `Option`/pairs mirroring the Go multiple
  return values.
-/

/-- A token is a pair of token identifier and secret
(src/oauth1.go, type `token`). -/
structure token where
  token : String
  secret : String
deriving DecidableEq, Repr

/-- One cache entry: the stored token plus the time it was inserted or
last promoted (src/lru.go, `tokenCacheItem`; the `listElement` pointer is
represented by the position of the entry inside `tokenCache.list`). -/
structure tokenCacheItem where
  tok : token
  timeIn : Int
deriving DecidableEq, Repr

/-- The LRU token cache (src/lru.go, `tokenCache`).  `list` holds the
entries most recently used first; the Go `items` map is the same set of
entries keyed by `tok.token`. -/
structure tokenCache where
  remCapacity : Int
  minTimeInCache : Int
  list : List tokenCacheItem
deriving DecidableEq, Repr

/-- src/lru.go, `newTokenCache`. -/
def newTokenCache (capacity minTimeInCacheSeconds : Int) : tokenCache :=
  { remCapacity := capacity, minTimeInCache := minTimeInCacheSeconds, list := [] }

/-- src/lru.go, `size`: the number of entries in the map (= in the list). -/
def tokenCache.size (c : tokenCache) : Nat := c.list.length

/-- Lookup predicate of the Go map `c.items[key]`. -/
def keyMatch (key : String) (it : tokenCacheItem) : Bool := it.tok.token == key

/-- src/lru.go, `getToken`: look the key up; on a miss return the error
(`none` here) and leave the cache unchanged; on a hit promote the entry
(refresh `timeIn`, move to the front) and return its token. -/
def tokenCache.getToken (c : tokenCache) (key : String) (now : Int) :
    Option token × tokenCache :=
  match c.list.find? (keyMatch key) with
  | none => (none, c)
  | some item =>
      (some item.tok,
        { c with list := ⟨item.tok, now⟩ :: c.list.eraseP (keyMatch key) })

/-- The loop body of src/lru.go, `trimCache`: up to `fuel` times (50 in the
source), remove the entry at the back of the recency list, mark success,
free one slot of capacity, and stop early if the entry just removed was
younger than the minimum retention. -/
def trimLoop : Nat → tokenCache → Int → Bool → Bool × tokenCache
  | 0, c, _, success => (success, c)
  | fuel + 1, c, now, success =>
      match c.list.getLast? with
      | none => (success, c)
      | some item =>
          let c' : tokenCache :=
            { c with list := c.list.dropLast, remCapacity := c.remCapacity + 1 }
          if now - item.timeIn < c.minTimeInCache then (true, c')
          else trimLoop fuel c' now true

/-- src/lru.go, `trimCache`: trim up to 50 oldest entries. -/
def tokenCache.trimCache (c : tokenCache) (now : Int) : Bool × tokenCache :=
  trimLoop 50 c now false

/-- The part of src/lru.go `addToken` after the capacity check: if the key
is already present, replace the payload of the entry and promote it;
otherwise push a fresh entry to the front and consume one slot of
capacity. -/
def insertToken (c : tokenCache) (t : token) (now : Int) : tokenCache :=
  match c.list.find? (keyMatch t.token) with
  | some _ => { c with list := ⟨t, now⟩ :: c.list.eraseP (keyMatch t.token) }
  | none =>
      { c with list := ⟨t, now⟩ :: c.list, remCapacity := c.remCapacity - 1 }

/-- src/lru.go, `addToken`: when no capacity remains, first run `trimCache`;
if it frees nothing, fail; otherwise (or when capacity remains) insert. -/
def tokenCache.addToken (c : tokenCache) (t : token) (now : Int) :
    Bool × tokenCache :=
  if c.remCapacity ≤ 0 then
    let r := c.trimCache now
    if r.1 then (true, insertToken r.2 t now) else (false, r.2)
  else (true, insertToken c t now)

/-- One externally visible cache operation, with the wall-clock instant at
which it is performed. -/
inductive cacheOp where
  | put : token → Int → cacheOp
  | get : String → Int → cacheOp
deriving DecidableEq, Repr

/-- Apply one operation to the cache, keeping only the state. -/
def tokenCache.applyOp (c : tokenCache) : cacheOp → tokenCache
  | .put t now => (c.addToken t now).2
  | .get k now => (c.getToken k now).2

/-- Run a sequence of cache operations from a starting state. -/
def tokenCache.runOps (c : tokenCache) (ops : List cacheOp) : tokenCache :=
  ops.foldl tokenCache.applyOp c

/-- Insert a list of tokens one after the other, all at instant `now`
(the shape of the loops in the cache test suite). -/
def insertAll (c : tokenCache) (ts : List token) (now : Int) : tokenCache :=
  ts.foldl (fun c t => (c.addToken t now).2) c


/-!
## Signature engine (src/oauth1.go)

Go strings are byte sequences; the signature engine is modelled over
`goStr := List Nat`, one entry per byte.
-/

/-- A Go string seen as its byte sequence. -/
abbrev goStr := List Nat

/-- The bytes that Go url.QueryEscape leaves untouched in a query
component: ASCII letters, digits, and the marks `-` `_` `.` `~`. -/
def isUnescapedQueryByte (b : Nat) : Bool :=
  (65 ≤ b && b ≤ 90) || (97 ≤ b && b ≤ 122) || (48 ≤ b && b ≤ 57) ||
    b == 45 || b == 95 || b == 46 || b == 126

/-- Upper-case hexadecimal digit of a value below 16, as a byte. -/
def hexUpper (n : Nat) : Nat := if n < 10 then 48 + n else 55 + n

/-- Model of the Go standard library function url.QueryEscape, used by the
signature engine for every percent-encoding step: unreserved bytes are
kept, a space becomes `+`, and every other byte becomes `%XX` with
upper-case hexadecimal digits. -/
def queryEscape : goStr → goStr
  | [] => []
  | b :: rest =>
      (if isUnescapedQueryByte b then [b]
       else if b == 32 then [43]
       else [37, hexUpper (b / 16), hexUpper (b % 16)]) ++ queryEscape rest

/-- ASCII upper-casing of one byte (model of strings.ToUpper restricted to
the ASCII inputs the protocol uses). -/
def upperByte (b : Nat) : Nat := if 97 ≤ b && b ≤ 122 then b - 32 else b

/-- Model of strings.ToUpper on ASCII byte strings. -/
def goToUpper (s : goStr) : goStr := s.map upperByte

/-- src/oauth1.go, type `oauthPair`: one ordered key/value parameter. -/
structure oauthPair where
  key : goStr
  value : goStr
deriving DecidableEq, Repr

/-- src/oauth1.go, `toParamList`: project an unordered parameter map onto
the caller-supplied order, dropping absent keys.  The Go map is modelled
as an association list consulted with `lookup`-style search. -/
def toParamList (params : List (goStr × goStr)) (order : List goStr) :
    List oauthPair :=
  order.filterMap fun key =>
    (params.find? (fun kv => kv.1 == key)).map fun kv => ⟨key, kv.2⟩

/-- The string `key + "=" + url.QueryEscape(value)` built for each pair in
the loop of src/oauth1.go `createBaseString` (61 is the byte of `=`). -/
def pairEncode (p : oauthPair) : goStr := p.key ++ [61] ++ queryEscape p.value

/-- The accumulation loop of src/oauth1.go `createBaseString`: start from
the empty string, and for each pair append either the encoded pair (first
iteration) or `&` followed by the encoded pair (38 is the byte of `&`). -/
def paramJoin (params : List oauthPair) : goStr :=
  params.foldl
    (fun ps p => if ps.length == 0 then pairEncode p else ps ++ [38] ++ pairEncode p)
    []

/-- src/oauth1.go, `createBaseString`: `VERB&QueryEscape(url)&QueryEscape(params)`
with the verb upper-cased and the parameters joined by the loop above. -/
def createBaseString (verb tourl : goStr) (params : List oauthPair) : goStr :=
  goToUpper verb ++ [38] ++ queryEscape tourl ++ [38] ++ queryEscape (paramJoin params)

/-- Joining a list of already-encoded pairs with `&`, written the way the
specification describes it.  Used as the specification-side counterpart of
the `paramJoin` loop. -/
def joinAmp : List goStr → goStr
  | [] => []
  | [s] => s
  | s :: rest => s ++ [38] ++ joinAmp rest

/-- The base string as the specification words it: percent-encode the URL,
encode each pair individually, join the encoded pairs with `&` in caller
order, and concatenate `VERB&encoded(url)&encoded(joined-params)` with the
verb upper-cased. -/
def baseStringSpec (verb tourl : goStr) (params : List oauthPair) : goStr :=
  goToUpper verb ++ [38] ++ queryEscape tourl ++ [38] ++
    queryEscape (joinAmp (params.map pairEncode))

/-!
### HMAC-SHA1 and base64 (models of crypto/sha1, crypto/hmac, encoding/base64)
-/

/-- Truncation to a 32-bit word. -/
def w32 (n : Nat) : Nat := n % 4294967296

/-- Left rotation of a 32-bit word by `k` bits (for `k` between 1 and 31). -/
def rotl32 (n k : Nat) : Nat := w32 (n * 2 ^ k + n / 2 ^ (32 - k))

/-- The SHA-1 round constant for round `i`. -/
def sha1K (i : Nat) : Nat :=
  if i < 20 then 1518500249
  else if i < 40 then 1859775393
  else if i < 60 then 2400959708
  else 3395469782

/-- The SHA-1 round function for round `i` (4294967295 is the all-ones
32-bit word, so subtraction from it is bitwise complement). -/
def sha1F (i b c d : Nat) : Nat :=
  if i < 20 then (b &&& c) ||| ((4294967295 - b) &&& d)
  else if i < 40 then b ^^^ c ^^^ d
  else if i < 60 then (b &&& c) ||| (b &&& d) ||| (c &&& d)
  else b ^^^ c ^^^ d

/-- Big-endian packing of bytes into 32-bit words (trailing bytes that do
not fill a word are dropped; padded input is always word-aligned). -/
def bytesToWords : List Nat → List Nat
  | b0 :: b1 :: b2 :: b3 :: rest =>
      (b0 * 16777216 + b1 * 65536 + b2 * 256 + b3) :: bytesToWords rest
  | _ => []

/-- Big-endian bytes of one 32-bit word. -/
def wordToBytes (wd : Nat) : List Nat :=
  [wd / 16777216 % 256, wd / 65536 % 256, wd / 256 % 256, wd % 256]

/-- Extend the 16 scheduled words of a block to 80, one new word per unit
of fuel. -/
def sha1Extend (ws : List Nat) : Nat → List Nat
  | 0 => ws
  | fuel + 1 =>
      let i := ws.length
      let v := rotl32
        (ws.getD (i - 3) 0 ^^^ ws.getD (i - 8) 0 ^^^
          ws.getD (i - 14) 0 ^^^ ws.getD (i - 16) 0) 1
      sha1Extend (ws ++ [v]) fuel

/-- The running SHA-1 state of five 32-bit words. -/
structure sha1State where
  a : Nat
  b : Nat
  c : Nat
  d : Nat
  e : Nat
deriving DecidableEq, Repr

/-- Compress one 512-bit block (given as its 16 words) into the state. -/
def sha1Compress (h : sha1State) (block : List Nat) : sha1State :=
  let ws := sha1Extend block 64
  let f := ws.enum.foldl
    (fun (st : sha1State) (iw : Nat × Nat) =>
      let t := w32 (rotl32 st.a 5 + sha1F iw.1 st.b st.c st.d + st.e + sha1K iw.1 + iw.2)
      ⟨t, st.a, rotl32 st.b 30, st.c, st.d⟩)
    h
  ⟨w32 (h.a + f.a), w32 (h.b + f.b), w32 (h.c + f.c), w32 (h.d + f.d), w32 (h.e + f.e)⟩

/-- SHA-1 padding: the byte 0x80, zeros to 56 mod 64, then the bit length
as eight big-endian bytes. -/
def sha1Pad (msg : List Nat) : List Nat :=
  let bitLen := msg.length * 8
  let zeros := (64 - (msg.length + 9) % 64) % 64
  msg ++ [128] ++ List.replicate zeros 0 ++
    [56, 48, 40, 32, 24, 16, 8, 0].map (fun s => bitLen / 2 ^ s % 256)

/-- Split padded bytes into blocks of 16 words; the fuel is the byte
length, enough for one unit per block. -/
def sha1Blocks : Nat → List Nat → List (List Nat)
  | 0, _ => []
  | _, [] => []
  | fuel + 1, bytes => bytesToWords (bytes.take 64) :: sha1Blocks fuel (bytes.drop 64)

/-- The SHA-1 initial state. -/
def sha1Init : sha1State := ⟨1732584193, 4023233417, 2562383102, 271733878, 3285377520⟩

/-- SHA-1 of a byte sequence (model of crypto/sha1). -/
def sha1 (msg : List Nat) : List Nat :=
  let padded := sha1Pad msg
  let st := (sha1Blocks padded.length padded).foldl sha1Compress sha1Init
  wordToBytes st.a ++ wordToBytes st.b ++ wordToBytes st.c ++
    wordToBytes st.d ++ wordToBytes st.e

/-- HMAC-SHA1 (model of crypto/hmac over SHA-1, block size 64): keys longer
than a block are hashed, the key is zero-padded to the block size, and the
digest is sha1(key xor opad ++ sha1(key xor ipad ++ message)). -/
def hmacSha1 (key msg : List Nat) : List Nat :=
  let k0 := if 64 < key.length then sha1 key else key
  let kp := k0 ++ List.replicate (64 - k0.length) 0
  sha1 ((kp.map fun b => b ^^^ 92) ++ sha1 ((kp.map fun b => b ^^^ 54) ++ msg))

/-- The byte of the standard base64 alphabet at index `n < 64`. -/
def base64Char (n : Nat) : Nat :=
  if n < 26 then 65 + n
  else if n < 52 then 97 + (n - 26)
  else if n < 62 then 48 + (n - 52)
  else if n == 62 then 43
  else 47

/-- Standard base64 encoding with `=` padding (model of
encoding/base64 StdEncoding). -/
def base64Encode : List Nat → List Nat
  | b0 :: b1 :: b2 :: rest =>
      base64Char (b0 / 4) :: base64Char (b0 % 4 * 16 + b1 / 16) ::
        base64Char (b1 % 16 * 4 + b2 / 64) :: base64Char (b2 % 64) ::
        base64Encode rest
  | [b0, b1] =>
      [base64Char (b0 / 4), base64Char (b0 % 4 * 16 + b1 / 16),
        base64Char (b1 % 16 * 4), 61]
  | [b0] => [base64Char (b0 / 4), base64Char (b0 % 4 * 16), 61, 61]
  | [] => []

/-- src/oauth1.go, `createMethodSignature`: the key is
`QueryEscape(clientSecret) + "&"`, extended by `QueryEscape(oauthSecret)`
when the latter is nonempty; the result is the base64 of the HMAC-SHA1 of
the base string under that key. -/
def createMethodSignature (baseString clientSecret oauthSecret : goStr) : goStr :=
  let secretKey := queryEscape clientSecret ++ [38]
  let secretKey :=
    if 0 < oauthSecret.length then secretKey ++ queryEscape oauthSecret else secretKey
  base64Encode (hmacSha1 secretKey baseString)

/-!
## Flow controller (src/oauth1.go, `GetRedirectURL` / `ProcessResponse`)

The three HTTP legs each perform exactly one network round trip inside
`fetchOAuthRequestToken`, `fetchOAuthAccessToken` and `fetchUserInfo`.
Their outcomes are supplied by an explicit `netOracle`; the parsing of the
form-encoded token responses and the JSON decoding plus `toUserData`
normalization (external collaborator) are folded into the oracle values.
`ProcessResponse` additionally reports how many access-token and
user-info round trips it performed.
-/

/-- src/goauth.go, `UserData`: the output projection handed back to the
caller of `ProcessResponse`. -/
structure UserData where
  UserID : String
  Email : String
  FullName : String
  GivenName : String
  FamilyName : String
  ScreenName : String
  PhotoURL : String
  OAuthProvider : String
  OAuthVersion : String
  OAuthToken : String
  OAuthTokenType : String
deriving DecidableEq, Repr

/-- The zero value of `UserData` (the value of `var user UserData`). -/
def zeroUserData : UserData := ⟨"", "", "", "", "", "", "", "", "", "", ""⟩

/-- src/goauth.go, `OAuthVersion1`. -/
def OAuthVersion1 : String := "1.0"

/-- Model of strings.ToUpper on Lean strings (character-wise upper-casing,
as the Go function behaves on the ASCII provider names involved). -/
def goUpperStr (s : String) : String := ⟨s.data.map Char.toUpper⟩

/-- The fields of src/oauth1.go `OAuth1ServiceProviderConfig` that the
verified operations read. -/
structure OAuth1Config where
  ProviderName : String
  AuthURL : String
deriving DecidableEq, Repr

/-- Outcomes of the network round trips, one field per HTTP leg.
`requestLeg`/`accessLeg` carry the token parsed out of the form-encoded
response body; `userLeg` carries the output of the external `toUserData`
normalization of the decoded JSON body.  An `Except.error` is the Go
non-nil error returned by that leg. -/
structure netOracle where
  requestLeg : Except String token
  accessLeg : Except String token
  userLeg : Except String UserData
deriving Repr

/-- src/oauth1.go, `fetchOAuthAccessToken`: one access-token round trip
signed with the cached request token and the verifier; returns the Go
pair (token, error).  The signing and transmission internals are folded
into the oracle outcome. -/
def fetchOAuthAccessToken (authToken : token) (verifier : String)
    (o : netOracle) : token × Option String :=
  match authToken, verifier, o.accessLeg with
  | _, _, .error e => (⟨"", ""⟩, some e)
  | _, _, .ok t => (t, none)

/-- src/oauth1.go, `fetchUserInfo`: one user-info round trip; on success
the normalized record is stamped with the upper-cased provider name,
protocol version 1.0, the access token, and the token kind; on failure the
zero `UserData` is returned with the error. -/
def fetchUserInfo (cfg : OAuth1Config) (accessToken : token)
    (verifier : String) (o : netOracle) : UserData × Option String :=
  match verifier, o.userLeg with
  | _, .error e => (zeroUserData, some e)
  | _, .ok u =>
      ({ u with
          OAuthProvider := goUpperStr cfg.ProviderName
          OAuthVersion := OAuthVersion1
          OAuthToken := accessToken.token
          OAuthTokenType := "Access Token" }, none)

/-- The full outcome of one `ProcessResponse` call: the Go return pair,
the cache state left behind, and the number of access-token and user-info
round trips performed. -/
structure processResult where
  user : UserData
  err : Option String
  cache : tokenCache
  accessCalls : Nat
  userInfoCalls : Nat
deriving DecidableEq, Repr

/-- src/oauth1.go, `ProcessResponse`: read `oauth_token` and
`oauth_verifier` from the callback; fail at once when either is empty;
fail with the invalid-token error on a cache miss; otherwise run the
access-token leg and then the user-info leg. -/
def ProcessResponse (cfg : OAuth1Config) (tokenString verifier : String)
    (cache : tokenCache) (now : Int) (o : netOracle) : processResult :=
  if 0 < tokenString.length ∧ 0 < verifier.length then
    match cache.getToken tokenString now with
    | (some tok, cache') =>
        match fetchOAuthAccessToken tok verifier o with
        | (_, some e) => ⟨zeroUserData, some e, cache', 1, 0⟩
        | (accessToken, none) =>
            let r := fetchUserInfo cfg accessToken verifier o
            ⟨r.1, r.2, cache', 1, 1⟩
    | (none, cache') =>
        ⟨zeroUserData, some "Invalid request: could not validate oauth token.",
          cache', 0, 0⟩
  else
    ⟨zeroUserData, some "Invalid request: missing token or verifier.", cache, 0, 0⟩

/-- src/oauth1.go, `GetRedirectURL`: run the request-token leg; on success
hand the token to `addToken` (whose boolean result the source discards)
and return `AuthURL?oauth_token=<token>` with a nil error; on failure
return the zero url with the error of the leg. -/
def GetRedirectURL (cfg : OAuth1Config) (cache : tokenCache) (now : Int)
    (o : netOracle) : String × Option String × tokenCache :=
  match o.requestLeg with
  | .error e => ("", some e, cache)
  | .ok t =>
      let r := cache.addToken t now
      (cfg.AuthURL ++ "?oauth_token=" ++ t.token, none, r.2)

/-!
## Cache lemmas
-/

theorem trimLoop_nil (fuel : Nat) (c : tokenCache) (now : Int) (s : Bool)
    (h : c.list = []) : trimLoop fuel c now s = (s, c) := by
  cases fuel with
  | zero => rfl
  | succ n => simp [trimLoop, h]

theorem trimLoop_state (fuel : Nat) (now : Int) :
    ∀ (c : tokenCache) (s : Bool),
      (trimLoop fuel c now s).2.remCapacity + ((trimLoop fuel c now s).2.list.length : Int)
          = c.remCapacity + c.list.length
        ∧ c.remCapacity ≤ (trimLoop fuel c now s).2.remCapacity
        ∧ (trimLoop fuel c now s).2.minTimeInCache = c.minTimeInCache
        ∧ (trimLoop fuel c now s).2.list.length ≤ c.list.length := by
  induction fuel with
  | zero => intro c s; simp [trimLoop]
  | succ n ih =>
    intro c s
    rcases h : c.list.getLast? with _ | item
    · simp [trimLoop, h]
    · have hne : c.list ≠ [] := by
        intro hn; rw [hn] at h; simp at h
      have hlen : 0 < c.list.length := List.length_pos.2 hne
      by_cases hy : now - item.timeIn < c.minTimeInCache
      · simp only [trimLoop, h, if_pos hy]
        refine ⟨?_, ?_, ?_, ?_⟩ <;> simp <;> omega
      · simp only [trimLoop, h, if_neg hy]
        have := ih { c with list := c.list.dropLast, remCapacity := c.remCapacity + 1 } true
        simp only [List.length_dropLast] at this
        obtain ⟨h1, h2, h3, h4⟩ := this
        exact ⟨by omega, by omega, h3, by omega⟩

theorem trimLoop_gain (fuel : Nat) (c : tokenCache) (now : Int) (s : Bool)
    (h1 : (trimLoop fuel c now s).1 = true) (h2 : s = false) :
    c.remCapacity + 1 ≤ (trimLoop fuel c now s).2.remCapacity := by
  subst h2
  cases fuel with
  | zero => simp [trimLoop] at h1
  | succ n =>
    rcases h : c.list.getLast? with _ | item
    · rw [trimLoop_nil _ _ _ _ (by simpa using h)] at h1
      simp at h1
    · by_cases hy : now - item.timeIn < c.minTimeInCache
      · simp only [trimLoop, h, if_pos hy]
        simp
      · simp only [trimLoop, h, if_neg hy]
        have h2 := (trimLoop_state n now
          { c with list := c.list.dropLast, remCapacity := c.remCapacity + 1 } true).2.1
        simp only at h2
        omega

theorem trimLoop_fst_true (fuel : Nat) (now : Int) :
    ∀ c : tokenCache, (trimLoop fuel c now true).1 = true := by
  induction fuel with
  | zero => intro c; rfl
  | succ n ih =>
    intro c
    rcases h : c.list.getLast? with _ | item
    · simp [trimLoop, h]
    · simp only [trimLoop, h]
      split
      · rfl
      · exact ih _

theorem trimLoop_success (fuel : Nat) (c : tokenCache) (now : Int) (s : Bool)
    (h : c.list ≠ []) : (trimLoop (fuel + 1) c now s).1 = true := by
  rcases hg : c.list.getLast? with _ | item
  · exact absurd (by simpa using hg) h
  · simp only [trimLoop, hg]
    split
    · rfl
    · exact trimLoop_fst_true fuel now _

/-- The state part of a successful erase: when `find?` hits, the
erase-and-reinsert of `insertToken` keeps the entry count. -/
theorem length_eraseP_of_find? {l : List tokenCacheItem} {p : tokenCacheItem → Bool}
    {a : tokenCacheItem} (h : l.find? p = some a) :
    (l.eraseP p).length + 1 = l.length :=
  List.length_eraseP_add_one (List.mem_of_find?_eq_some h) (List.find?_some h)

theorem insertToken_sum (c : tokenCache) (t : token) (now : Int) :
    (insertToken c t now).remCapacity + ((insertToken c t now).list.length : Int)
      = c.remCapacity + c.list.length := by
  unfold insertToken
  rcases h : c.list.find? (keyMatch t.token) with _ | a
  · simp
  · have := length_eraseP_of_find? h
    simp only [List.length_cons]
    omega

theorem insertToken_rem (c : tokenCache) (t : token) (now : Int) :
    c.remCapacity - 1 ≤ (insertToken c t now).remCapacity := by
  unfold insertToken
  rcases h : c.list.find? (keyMatch t.token) with _ | a <;> simp

theorem insertToken_minTime (c : tokenCache) (t : token) (now : Int) :
    (insertToken c t now).minTimeInCache = c.minTimeInCache := by
  unfold insertToken
  rcases h : c.list.find? (keyMatch t.token) with _ | a <;> simp

/-- The cache always satisfies this shape: the remaining capacity plus the
entry count equals the constructed capacity, and the remaining capacity is
never negative. -/
def cacheInv (cap : Int) (c : tokenCache) : Prop :=
  c.remCapacity + (c.list.length : Int) = cap ∧ 0 ≤ c.remCapacity

theorem addToken_inv {cap : Int} {c : tokenCache} (t : token) (now : Int)
    (h : cacheInv cap c) : cacheInv cap (c.addToken t now).2 := by
  obtain ⟨hsum, hrem⟩ := h
  rcases htc : c.trimCache now with ⟨b, c2⟩
  have hst := trimLoop_state 50 now c false
  rw [show trimLoop 50 c now false = c.trimCache now from rfl, htc] at hst
  obtain ⟨tsum, tmono, -, -⟩ := hst
  simp only at tsum tmono
  unfold tokenCache.addToken
  rw [htc]
  by_cases hrc : c.remCapacity ≤ 0
  · rw [if_pos hrc]
    cases b with
    | false =>
      rw [if_neg (by simp)]
      exact ⟨by simp only; omega, by simp only; omega⟩
    | true =>
      rw [if_pos rfl]
      have hgain := trimLoop_gain 50 c now false
        (by rw [show trimLoop 50 c now false = c.trimCache now from rfl, htc]) rfl
      rw [show trimLoop 50 c now false = c.trimCache now from rfl, htc] at hgain
      simp only at hgain
      have h1 := insertToken_sum c2 t now
      have h2 := insertToken_rem c2 t now
      exact ⟨by simp only; omega, by simp only; omega⟩
  · rw [if_neg hrc]
    have h1 := insertToken_sum c t now
    have h2 := insertToken_rem c t now
    exact ⟨by simp only; omega, by simp only; omega⟩

theorem getToken_inv {cap : Int} {c : tokenCache} (k : String) (now : Int)
    (h : cacheInv cap c) : cacheInv cap (c.getToken k now).2 := by
  obtain ⟨hsum, hrem⟩ := h
  unfold tokenCache.getToken
  rcases hf : c.list.find? (keyMatch k) with _ | a
  · exact ⟨hsum, hrem⟩
  · have := length_eraseP_of_find? hf
    refine ⟨?_, hrem⟩
    simp only [List.length_cons]
    omega

theorem runOps_inv {cap : Int} {c : tokenCache} (ops : List cacheOp)
    (h : cacheInv cap c) : cacheInv cap (c.runOps ops) := by
  induction ops generalizing c with
  | nil => exact h
  | cons op rest ih =>
    cases op with
    | put t now => exact ih (addToken_inv t now h)
    | get k now => exact ih (getToken_inv k now h)

/-- C5: for every sequence of put and get operations on a token cache
constructed with capacity `C ≥ 0`, the entry count `size` never exceeds
`C`: the cache never exceeds its capacity in any reachable state. -/
theorem capacity_never_exceeded (C : Int) (hC : 0 ≤ C) (minT : Int)
    (ops : List cacheOp) :
    (((newTokenCache C minT).runOps ops).size : Int) ≤ C := by
  have h0 : cacheInv C (newTokenCache C minT) := by
    constructor <;> simp [newTokenCache, hC]
  obtain ⟨hsum, hrem⟩ := runOps_inv ops h0
  unfold tokenCache.size
  omega

/-- Witness for C5 at a concrete run: capacity 2, five operations. -/
theorem capacity_never_exceeded_witness :
    (((newTokenCache 2 0).runOps
        [.put ⟨"a", "1"⟩ 0, .put ⟨"b", "2"⟩ 0, .put ⟨"c", "3"⟩ 1,
          .get "c" 2, .put ⟨"d", "4"⟩ 3]).size : Int) ≤ 2 :=
  capacity_never_exceeded 2 (by decide) 0 _

/-- C1 counterexample: capacity 1, minimum retention 1000 s, both
insertions at instant 0.  The second `addToken` needs room; the only
entry is 0 seconds old — far younger than the minimum retention — yet it
is evicted and the insertion returns success, not the cache-full
failure the claim requires. -/
theorem young_entry_evicted_counterexample :
    ((((newTokenCache 1 1000).addToken ⟨"0", "s0"⟩ 0).2.addToken ⟨"1", "s1"⟩ 0).1
        = true)
    ∧ (((newTokenCache 1 1000).addToken ⟨"0", "s0"⟩ 0).2.addToken ⟨"1", "s1"⟩ 0).2.list
        = [⟨⟨"1", "s1"⟩, 0⟩] := by
  decide

/-- C1 (amended): eviction to make room always removes the
least-recently-used entry even when that entry is younger than
`minTimeInCache` (the age guard only ends the eviction batch after such a
removal), so an insertion that needs room succeeds whenever the cache
holds any entry at all; `addToken` reports the cache-full failure only
when there is nothing to evict (remaining capacity exhausted and the
recency list empty, as with capacity 0). -/
theorem put_refused_only_when_empty (c : tokenCache) (t : token) (now : Int) :
    (c.list ≠ [] → (c.addToken t now).1 = true)
    ∧ (c.remCapacity ≤ 0 → c.list = [] → c.addToken t now = (false, c)) := by
  constructor
  · intro hne
    unfold tokenCache.addToken
    rcases htc : c.trimCache now with ⟨b, c2⟩
    have hs : b = true := by
      have := trimLoop_success 49 c now false hne
      rw [show trimLoop (49 + 1) c now false = c.trimCache now from rfl, htc] at this
      exact this
    subst hs
    by_cases hrc : c.remCapacity ≤ 0
    · rw [if_pos hrc]
      rfl
    · rw [if_neg hrc]
  · intro hrc hnil
    unfold tokenCache.addToken
    rw [if_pos hrc, tokenCache.trimCache, trimLoop_nil 50 c now false hnil,
      if_neg (by simp)]

/-- Witness for C1 (amended): an insertion into a full nonempty cache
succeeds; an insertion into a capacity-0 cache is refused. -/
theorem put_refused_only_when_empty_witness :
    ((⟨0, 300, [⟨⟨"a", "sa"⟩, 0⟩]⟩ : tokenCache).addToken ⟨"b", "sb"⟩ 5).1 = true
    ∧ (newTokenCache 0 0).addToken ⟨"x", "sx"⟩ 0 = (false, newTokenCache 0 0) :=
  ⟨(put_refused_only_when_empty ⟨0, 300, [⟨⟨"a", "sa"⟩, 0⟩]⟩ ⟨"b", "sb"⟩ 5).1
      (by decide),
    (put_refused_only_when_empty (newTokenCache 0 0) ⟨"x", "sx"⟩ 0).2
      (by decide) rfl⟩

/-- C2 counterexample: capacity 4, minimum retention 1000 s, five distinct
tokens inserted at one instant.  The final size is 4, not the claimed 1:
the age guard stops each eviction batch after a single (young) entry, so
every insertion frees exactly one slot. -/
theorem burst_insert_size_counterexample :
    (insertAll (newTokenCache 4 1000)
      [⟨"0", "0"⟩, ⟨"1", "1"⟩, ⟨"2", "2"⟩, ⟨"3", "3"⟩, ⟨"4", "4"⟩] 0).size ≠ 1 := by
  decide

/-- C2 (amended): with capacity 4 and a retention window longer than the
burst, inserting five distinct tokens at one instant leaves size 4 (the
four most recent entries).  The size-1 outcome belongs to the cache with
minimum retention 0, whose eviction batch clears everything — exactly the
pair of outcomes the repository test TestMinAge asserts. -/
theorem burst_insert_size_amended :
    ((insertAll (newTokenCache 4 1000)
        [⟨"0", "0"⟩, ⟨"1", "1"⟩, ⟨"2", "2"⟩, ⟨"3", "3"⟩, ⟨"4", "4"⟩] 0).size = 4
      ∧ (insertAll (newTokenCache 4 1000)
          [⟨"0", "0"⟩, ⟨"1", "1"⟩, ⟨"2", "2"⟩, ⟨"3", "3"⟩, ⟨"4", "4"⟩] 0).list.map
            (fun it => it.tok.token) = ["4", "3", "2", "1"])
    ∧ (insertAll (newTokenCache 4 0)
        [⟨"0", "0"⟩, ⟨"1", "1"⟩, ⟨"2", "2"⟩, ⟨"3", "3"⟩, ⟨"4", "4"⟩] 0).size = 1 := by
  decide

/-- C3 counterexample: capacity 4, minimum retention 0, five distinct
tokens inserted in succession leave 1 entry, not the claimed
capacity = 4. -/
theorem pure_lru_counterexample :
    (insertAll (newTokenCache 4 0)
      [⟨"5", "5"⟩, ⟨"6", "6"⟩, ⟨"7", "7"⟩, ⟨"8", "8"⟩, ⟨"9", "9"⟩] 0).size ≠ 4 := by
  decide

/-- Inserting pairwise-distinct fresh tokens while capacity remains fills
the cache front to back without any eviction. -/
theorem insertAll_fresh (now : Int) :
    ∀ (ts : List token) (c : tokenCache),
      (∀ t ∈ ts, c.list.find? (keyMatch t.token) = none) →
      ts.Pairwise (fun a b => a.token ≠ b.token) →
      (ts.length : Int) ≤ c.remCapacity →
      insertAll c ts now =
        { remCapacity := c.remCapacity - ts.length,
          minTimeInCache := c.minTimeInCache,
          list := (ts.map (fun t => ⟨t, now⟩)).reverse ++ c.list } := by
  intro ts
  induction ts with
  | nil =>
    intro c _ _ _
    simp [insertAll]
  | cons t rest ih =>
    intro c h1 h2 h3
    have hrc : ¬ c.remCapacity ≤ 0 := by
      simp only [List.length_cons] at h3
      push_cast at h3
      omega
    have hfind : c.list.find? (keyMatch t.token) = none := h1 t (by simp)
    have hstep : (c.addToken t now).2 =
        { remCapacity := c.remCapacity - 1, minTimeInCache := c.minTimeInCache,
          list := ⟨t, now⟩ :: c.list } := by
      unfold tokenCache.addToken
      rw [if_neg hrc]
      unfold insertToken
      rw [hfind]
    have hall : ∀ u ∈ rest,
        (⟨t, now⟩ :: c.list).find? (keyMatch u.token) = none := by
      intro u hu
      have hne : t.token ≠ u.token := (List.pairwise_cons.1 h2).1 u hu
      rw [List.find?_cons_of_neg, h1 u (by simp [hu])]
      simp [keyMatch, hne]
    have hlen : ((rest.length : Int)) ≤ c.remCapacity - 1 := by
      simp only [List.length_cons] at h3
      push_cast at h3 ⊢
      omega
    have := ih
      { remCapacity := c.remCapacity - 1,
        minTimeInCache := c.minTimeInCache, list := ⟨t, now⟩ :: c.list }
      (by simpa using hall) (List.pairwise_cons.1 h2).2 (by simpa using hlen)
    calc insertAll c (t :: rest) now
        = insertAll (c.addToken t now).2 rest now := rfl
      _ = _ := by
          rw [hstep, this, tokenCache.mk.injEq]
          refine ⟨by push_cast [List.length_cons]; ring, rfl, by simp⟩

/-- When the minimum retention is not positive and every entry is at least
as old as `now`, the eviction loop drains the whole list (up to its fuel)
and reports success exactly when the list was nonempty. -/
theorem trimLoop_drain (now : Int) :
    ∀ (fuel : Nat) (c : tokenCache) (s : Bool),
      c.minTimeInCache ≤ 0 →
      (∀ it ∈ c.list, it.timeIn ≤ now) →
      c.list.length ≤ fuel →
      trimLoop fuel c now s =
        (s || !c.list.isEmpty,
          { remCapacity := c.remCapacity + c.list.length,
            minTimeInCache := c.minTimeInCache, list := [] }) := by
  intro fuel
  induction fuel with
  | zero =>
    intro c s _ _ h3
    have hnil : c.list = [] := List.length_eq_zero.1 (Nat.le_zero.1 h3)
    rw [trimLoop_nil 0 c now s hnil, hnil]
    simp
    rw [← hnil]
  | succ n ih =>
    intro c s h1 h2 h3
    rcases hg : c.list.getLast? with _ | item
    · have hnil : c.list = [] := by simpa using hg
      rw [trimLoop_nil (n + 1) c now s hnil, hnil]
      simp
      rw [← hnil]
    · have hmem : item ∈ c.list := List.mem_of_getLast?_eq_some hg
      have hage : ¬ now - item.timeIn < c.minTimeInCache := by
        have := h2 item hmem
        omega
      have hne : c.list ≠ [] := by
        intro hn; rw [hn] at hg; simp at hg
      have hlen : 0 < c.list.length := List.length_pos.2 hne
      simp only [trimLoop, hg, if_neg hage]
      rw [ih
        { remCapacity := c.remCapacity + 1,
          minTimeInCache := c.minTimeInCache, list := c.list.dropLast }
        true h1
        (fun it hit => h2 it (List.mem_of_mem_dropLast hit))
        (by simp only [List.length_dropLast]; omega)]
      simp only [Bool.true_or, List.length_dropLast]
      rw [Prod.mk.injEq, tokenCache.mk.injEq]
      have hemp : c.list.isEmpty = false := List.isEmpty_eq_false.2 hne
      refine ⟨by rw [hemp]; simp, ?_, rfl, rfl⟩
      omega

/-- C3 (amended): with `minRetention = 0` the cache is not a pure
capacity-bounded LRU.  An insertion that needs room drains the entire
cache in one eviction batch (every entry passes the age guard), so for
any capacity `C` with `1 ≤ C ≤ 50`, inserting `C + 1` pairwise-distinct
tokens leaves exactly one entry — the most recently inserted token — not
`C` entries. -/
theorem pure_lru_amended (C : Nat) (h1 : 1 ≤ C) (h50 : C ≤ 50)
    (init : List token) (t : token) (now : Int) (hlen : init.length = C)
    (hdist : (init ++ [t]).Pairwise (fun a b => a.token ≠ b.token)) :
    (insertAll (newTokenCache C 0) (init ++ [t]) now).list = [⟨t, now⟩]
    ∧ (insertAll (newTokenCache C 0) (init ++ [t]) now).size = 1 := by
  have hmid := insertAll_fresh now init (newTokenCache C 0)
    (by intro u _; rfl)
    ((List.pairwise_append.1 hdist).1)
    (by simp [newTokenCache, hlen])
  have hmid' : insertAll (newTokenCache C 0) init now =
      { remCapacity := 0, minTimeInCache := 0,
        list := (init.map (fun u => ⟨u, now⟩)).reverse } := by
    rw [hmid]
    simp [newTokenCache, hlen]
  have hrun : insertAll (newTokenCache C 0) (init ++ [t]) now =
      ((insertAll (newTokenCache C 0) init now).addToken t now).2 := by
    unfold insertAll
    rw [List.foldl_append]
    rfl
  have hdrain := trimLoop_drain now 50
    { remCapacity := 0, minTimeInCache := 0,
      list := (init.map (fun u => ⟨u, now⟩)).reverse }
    false (le_refl 0)
    (by
      intro it hit
      simp only [List.mem_reverse, List.mem_map] at hit
      obtain ⟨u, -, rfl⟩ := hit
      exact le_refl now)
    (by simp [hlen, h50])
  have hne : ((init.map (fun u => (⟨u, now⟩ : tokenCacheItem))).reverse.isEmpty)
      = false := by
    rw [List.isEmpty_eq_false]
    intro hn
    have : init = [] := by simpa using hn
    rw [this] at hlen
    simp at hlen
    omega
  have hfinal : ((insertAll (newTokenCache C 0) init now).addToken t now).2.list
      = [⟨t, now⟩] := by
    rw [hmid']
    unfold tokenCache.addToken tokenCache.trimCache
    rw [if_pos (le_refl 0)]
    rw [hdrain, hne]
    rfl
  refine ⟨by rw [hrun]; exact hfinal, ?_⟩
  unfold tokenCache.size
  rw [hrun, hfinal]
  rfl

/-- After one eviction step, the list is strictly shorter. -/
theorem trimLoop_shrink (fuel : Nat) (c : tokenCache) (now : Int) (s : Bool)
    (h : c.list ≠ []) :
    (trimLoop (fuel + 1) c now s).2.list.length ≤ c.list.length - 1 := by
  rcases hg : c.list.getLast? with _ | item
  · exact absurd (by simpa using hg) h
  · simp only [trimLoop, hg]
    split
    · simp
    · have := (trimLoop_state fuel now
        { c with list := c.list.dropLast, remCapacity := c.remCapacity + 1 }
        true).2.2.2
      simpa using this

/-- Inserting adds at most one entry. -/
theorem insertToken_length (c : tokenCache) (t : token) (now : Int) :
    (insertToken c t now).list.length ≤ c.list.length + 1 := by
  unfold insertToken
  rcases h : c.list.find? (keyMatch t.token) with _ | a
  · simp
  · have := length_eraseP_of_find? h
    simp only [List.length_cons]
    omega

/-- Witness for C3 (amended): capacity 4, five distinct tokens. -/
theorem pure_lru_amended_witness :
    (insertAll (newTokenCache 4 0)
      ([⟨"0", "0"⟩, ⟨"1", "1"⟩, ⟨"2", "2"⟩, ⟨"3", "3"⟩] ++ [⟨"4", "4"⟩]) 0).list
        = [⟨⟨"4", "4"⟩, 0⟩]
    ∧ (insertAll (newTokenCache 4 0)
      ([⟨"0", "0"⟩, ⟨"1", "1"⟩, ⟨"2", "2"⟩, ⟨"3", "3"⟩] ++ [⟨"4", "4"⟩]) 0).size = 1 :=
  pure_lru_amended 4 (by decide) (by decide)
    [⟨"0", "0"⟩, ⟨"1", "1"⟩, ⟨"2", "2"⟩, ⟨"3", "3"⟩] ⟨"4", "4"⟩ 0 (by decide)
    (by decide)

/-- C4 counterexample: capacity 2, minimum retention 0, operations
put A, put B, put A, all at instant 0.  Although identifier A is already
present at the third put, `addToken` checks remaining capacity first and
runs eviction, which clears the whole cache; afterwards entry B is gone
and the size is 1 — under the claim (replace payload of A, promote it,
no eviction since the identifier is not new) B would survive with size
2. -/
theorem put_existing_runs_eviction_counterexample :
    (((((newTokenCache 2 0).addToken ⟨"A", "1"⟩ 0).2.addToken
          ⟨"B", "2"⟩ 0).2.addToken ⟨"A", "3"⟩ 0).2.list.find? (keyMatch "B")
        = none)
    ∧ ((((newTokenCache 2 0).addToken ⟨"A", "1"⟩ 0).2.addToken
          ⟨"B", "2"⟩ 0).2.addToken ⟨"A", "3"⟩ 0).2.size ≠ 2 := by
  decide

/-- C4 (amended): `get` behaves exactly as claimed — a hit promotes the
entry (fresh timestamp, front of the recency order) and returns it
without removing it, so the same identifier succeeds on a repeated
lookup, and a miss fails leaving the cache unchanged.  For `put` the
replace-and-promote behavior holds when spare capacity remains; but
eviction is run whenever remaining capacity is zero — also when the
identifier is already present — so such a put never grows the cache and
may evict other entries (or the matching one) first. -/
theorem cache_op_semantics (c : tokenCache) (t : token) (k : String)
    (now now2 : Int) :
    (0 < c.remCapacity → ∀ it, c.list.find? (keyMatch t.token) = some it →
        (c.addToken t now).1 = true
        ∧ (c.addToken t now).2.size = c.size
        ∧ (c.addToken t now).2.list.head? = some ⟨t, now⟩)
    ∧ (∀ it, c.list.find? (keyMatch k) = some it →
        (c.getToken k now).1 = some it.tok
        ∧ (c.getToken k now).2.size = c.size
        ∧ (c.getToken k now).2.list.head? = some ⟨it.tok, now⟩
        ∧ ((c.getToken k now).2.getToken k now2).1 = some it.tok)
    ∧ (c.list.find? (keyMatch k) = none → c.getToken k now = (none, c))
    ∧ (c.remCapacity ≤ 0 → c.list ≠ [] →
        (c.addToken t now).2.size ≤ c.size) := by
  refine ⟨?_, ?_, ?_, ?_⟩
  · intro hrc it hf
    have hrc' : ¬ c.remCapacity ≤ 0 := by omega
    unfold tokenCache.addToken
    rw [if_neg hrc']
    unfold insertToken
    rw [hf]
    have := length_eraseP_of_find? hf
    refine ⟨rfl, ?_, rfl⟩
    unfold tokenCache.size
    simp only [List.length_cons]
    omega
  · intro it hf
    have hp : keyMatch k it = true := List.find?_some hf
    have hlen := length_eraseP_of_find? hf
    have hget : c.getToken k now =
        (some it.tok,
          { remCapacity := c.remCapacity, minTimeInCache := c.minTimeInCache,
            list := ⟨it.tok, now⟩ :: c.list.eraseP (keyMatch k) }) := by
      unfold tokenCache.getToken
      rw [hf]
    refine ⟨by rw [hget], ?_, by rw [hget]; rfl, ?_⟩
    · rw [hget]
      unfold tokenCache.size
      simp only [List.length_cons]
      omega
    · rw [hget]
      unfold tokenCache.getToken
      rw [List.find?_cons_of_pos _ (by simpa [keyMatch] using hp)]
  · intro hf
    unfold tokenCache.getToken
    rw [hf]
  · intro hrc hne
    unfold tokenCache.addToken
    rw [if_pos hrc]
    rcases htc : c.trimCache now with ⟨b, c2⟩
    have hsh := trimLoop_shrink 49 c now false hne
    rw [show trimLoop (49 + 1) c now false = c.trimCache now from rfl, htc] at hsh
    simp only at hsh
    have hlen : 0 < c.list.length := List.length_pos.2 hne
    cases b with
    | false =>
      rw [if_neg (by simp)]
      unfold tokenCache.size
      simp only
      omega
    | true =>
      rw [if_pos rfl]
      have hins := insertToken_length c2 t now
      unfold tokenCache.size
      simp only
      omega

/-- Witness for C4 (amended): a one-entry cache with spare capacity, a
put on the existing identifier, and a get hit. -/
theorem cache_op_semantics_witness :
    ((⟨1, 0, [⟨⟨"A", "s"⟩, 0⟩]⟩ : tokenCache).addToken ⟨"A", "s2"⟩ 5).1 = true
    ∧ ((⟨1, 0, [⟨⟨"A", "s"⟩, 0⟩]⟩ : tokenCache).getToken "A" 5).1
        = some ⟨"A", "s"⟩ :=
  ⟨((cache_op_semantics ⟨1, 0, [⟨⟨"A", "s"⟩, 0⟩]⟩ ⟨"A", "s2"⟩ "A" 5 7).1
      (by decide) ⟨⟨"A", "s"⟩, 0⟩ (by decide)).1,
    ((cache_op_semantics ⟨1, 0, [⟨⟨"A", "s"⟩, 0⟩]⟩ ⟨"A", "s2"⟩ "A" 5 7).2.1
      ⟨⟨"A", "s"⟩, 0⟩ (by decide)).1⟩

/-!
## Signature engine theorems
-/

theorem pairEncode_ne_nil (p : oauthPair) : pairEncode p ≠ [] := by
  unfold pairEncode
  simp

theorem joinAmp_cons (x : goStr) (xs : List goStr) :
    joinAmp (x :: xs) = x ++ (xs.map (fun s => [38] ++ s)).flatten := by
  induction xs generalizing x with
  | nil => simp [joinAmp]
  | cons y ys ih =>
    simp only [joinAmp, List.map_cons, List.flatten_cons]
    rw [ih y]
    simp [List.append_assoc]

theorem paramJoin_go (ps : List oauthPair) :
    ∀ acc : goStr, acc ≠ [] →
      ps.foldl
        (fun s p => if s.length == 0 then pairEncode p else s ++ [38] ++ pairEncode p)
        acc
        = acc ++ (ps.map (fun p => [38] ++ pairEncode p)).flatten := by
  induction ps with
  | nil => intro acc _; simp
  | cons p rest ih =>
    intro acc hacc
    have hlen : (acc.length == 0) = false := by
      simpa using fun h => hacc (List.length_eq_zero.1 h)
    rw [List.foldl_cons, if_neg (by simp [hlen]),
      ih (acc ++ [38] ++ pairEncode p) (by simp)]
    simp [List.append_assoc]

theorem paramJoin_eq (params : List oauthPair) :
    paramJoin params = joinAmp (params.map pairEncode) := by
  cases params with
  | nil => rfl
  | cons p rest =>
    unfold paramJoin
    rw [List.foldl_cons, if_pos (by rfl),
      paramJoin_go rest (pairEncode p) (pairEncode_ne_nil p),
      List.map_cons, joinAmp_cons]
    simp [List.map_map]
    rfl

theorem queryEscape_unescaped (s : goStr) (h : s.all isUnescapedQueryByte) :
    queryEscape s = s := by
  induction s with
  | nil => rfl
  | cons b rest ih =>
    simp only [List.all_cons, Bool.and_eq_true] at h
    unfold queryEscape
    rw [if_pos h.1, ih h.2]
    rfl

/-- C6: for every verb, URL and caller-supplied ordered parameter list,
`createBaseString` equals the specification-side construction: each pair
is encoded individually, the encoded pairs are joined with `&` in exactly
the caller-supplied order, and the result is
`VERB&encoded(url)&encoded(joined-params)` with the verb upper-cased.
The source encodes the value of each pair and passes the key through;
the second conjunct shows that whenever the keys consist of bytes the
encoding leaves unchanged (true of every `oauth_*` key the engine ever
passes), this coincides with encoding key and value of each pair. -/
theorem createBaseString_spec (verb tourl : goStr) (params : List oauthPair) :
    createBaseString verb tourl params = baseStringSpec verb tourl params
    ∧ ((∀ p ∈ params, p.key.all isUnescapedQueryByte) →
        createBaseString verb tourl params =
          goToUpper verb ++ [38] ++ queryEscape tourl ++ [38] ++
            queryEscape (joinAmp (params.map
              (fun p => queryEscape p.key ++ [61] ++ queryEscape p.value)))) := by
  constructor
  · unfold createBaseString baseStringSpec
    rw [paramJoin_eq]
  · intro hk
    unfold createBaseString
    rw [paramJoin_eq]
    have : params.map pairEncode = params.map
        (fun p => queryEscape p.key ++ [61] ++ queryEscape p.value) := by
      refine List.map_congr_left ?_
      intro p hp
      unfold pairEncode
      rw [queryEscape_unescaped p.key (hk p hp)]
    rw [this]

/-- Witness for C6 at a concrete verb, URL and parameter list with
standard keys. -/
theorem createBaseString_spec_witness :
    createBaseString [103, 101, 116] [104, 58, 47] [⟨[111, 107], [32, 61]⟩] =
      goToUpper [103, 101, 116] ++ [38] ++ queryEscape [104, 58, 47] ++ [38] ++
        queryEscape (joinAmp (([⟨[111, 107], [32, 61]⟩] : List oauthPair).map
          (fun p => queryEscape p.key ++ [61] ++ queryEscape p.value))) :=
  (createBaseString_spec [103, 101, 116] [104, 58, 47]
    [⟨[111, 107], [32, 61]⟩]).2 (by decide)

/-- C7: `createMethodSignature` base64-encodes the HMAC-SHA1 of the base
string under the key `percentEncode(clientSecret) & percentEncode(tokenSecret)`
(the branch on an empty token secret collapses into the same key because
the encoding of the empty string is empty), and it is deterministic:
identical inputs give identical signatures. -/
theorem createMethodSignature_spec (baseString clientSecret tokenSecret : goStr) :
    createMethodSignature baseString clientSecret tokenSecret
        = base64Encode (hmacSha1
            (queryEscape clientSecret ++ [38] ++ queryEscape tokenSecret)
            baseString)
    ∧ (∀ b cs ts, baseString = b → clientSecret = cs → tokenSecret = ts →
        createMethodSignature baseString clientSecret tokenSecret
          = createMethodSignature b cs ts) := by
  constructor
  · unfold createMethodSignature
    cases tokenSecret with
    | nil => simp [queryEscape]
    | cons b rest => simp [List.append_assoc]
  · intro b cs ts h1 h2 h3
    rw [h1, h2, h3]

/-- Witness for C7 at concrete byte strings. -/
theorem createMethodSignature_spec_witness :
    createMethodSignature [97, 98] [107] [] = createMethodSignature [97, 98] [107] [] :=
  (createMethodSignature_spec [97, 98] [107] []).2 [97, 98] [107] [] rfl rfl rfl

/-!
## Flow controller theorems
-/

/-- A lookup that reports a miss leaves the cache exactly as it was. -/
theorem getToken_miss (c : tokenCache) (k : String) (now : Int)
    (h : (c.getToken k now).1 = none) : c.getToken k now = (none, c) := by
  unfold tokenCache.getToken at h ⊢
  rcases hf : c.list.find? (keyMatch k) with _ | it
  · rfl
  · rw [hf] at h
    simp at h

/-- C8: failure modes of ProcessResponse.  With the token or verifier
parameter empty, it fails at once with the missing-parameter error, with
no network round trip and the cache untouched; with both present but the
token not in the cache, it fails with the invalid-token error, again
without any network call; and on every failure the returned UserData is
the zero value — the error is never accompanied by a partly filled
record. -/
theorem ProcessResponse_failure_modes (cfg : OAuth1Config)
    (tokenString verifier : String) (cache : tokenCache) (now : Int)
    (o : netOracle) :
    (¬ (0 < tokenString.length ∧ 0 < verifier.length) →
        ProcessResponse cfg tokenString verifier cache now o =
          ⟨zeroUserData, some "Invalid request: missing token or verifier.",
            cache, 0, 0⟩)
    ∧ ((0 < tokenString.length ∧ 0 < verifier.length) →
        (cache.getToken tokenString now).1 = none →
        ProcessResponse cfg tokenString verifier cache now o =
          ⟨zeroUserData,
            some "Invalid request: could not validate oauth token.",
            cache, 0, 0⟩)
    ∧ (∀ e, (ProcessResponse cfg tokenString verifier cache now o).err = some e →
        (ProcessResponse cfg tokenString verifier cache now o).user
          = zeroUserData) := by
  refine ⟨?_, ?_, ?_⟩
  · intro hp
    unfold ProcessResponse
    rw [if_neg hp]
  · intro hp hmiss
    unfold ProcessResponse
    rw [if_pos hp, getToken_miss cache tokenString now hmiss]
  · intro e
    unfold ProcessResponse
    by_cases hp : 0 < tokenString.length ∧ 0 < verifier.length
    · rw [if_pos hp]
      rcases hg : cache.getToken tokenString now with ⟨_ | tok, cache2⟩
      · intro _; rfl
      · unfold fetchOAuthAccessToken
        rcases ha : o.accessLeg with e2 | a
        · intro _; rfl
        · unfold fetchUserInfo
          rcases hu : o.userLeg with e3 | u
          · intro _; rfl
          · intro hsome
            simp at hsome
    · rw [if_neg hp]
      intro _; rfl

/-- Witness for C8: an empty verifier fails with the missing-parameter
error; a present pair with an empty cache fails with the invalid-token
error; in both cases the zero UserData comes back with no network call. -/
theorem ProcessResponse_failure_modes_witness :
    (ProcessResponse ⟨"P", "http://a"⟩ "tk" "" (newTokenCache 5 0) 0
        ⟨.error "r", .error "x", .error "y"⟩ =
      ⟨zeroUserData, some "Invalid request: missing token or verifier.",
        newTokenCache 5 0, 0, 0⟩)
    ∧ (ProcessResponse ⟨"P", "http://a"⟩ "tk" "v" (newTokenCache 5 0) 0
        ⟨.error "r", .error "x", .error "y"⟩ =
      ⟨zeroUserData, some "Invalid request: could not validate oauth token.",
        newTokenCache 5 0, 0, 0⟩) :=
  ⟨(ProcessResponse_failure_modes ⟨"P", "http://a"⟩ "tk" "" (newTokenCache 5 0) 0
      ⟨.error "r", .error "x", .error "y"⟩).1 (by decide),
    (ProcessResponse_failure_modes ⟨"P", "http://a"⟩ "tk" "v" (newTokenCache 5 0) 0
      ⟨.error "r", .error "x", .error "y"⟩).2.1 (by decide) rfl⟩

/-- C9: a successful round trip.  With both callback parameters present, a
cache hit, and both remaining legs succeeding, ProcessResponse returns no
error, performs exactly one access-token exchange and one user-info
fetch, and the returned UserData carries protocol version 1.0, the issued
access token, token kind Access Token, and the provider name. -/
theorem ProcessResponse_roundtrip (cfg : OAuth1Config)
    (tokenString verifier : String) (cache : tokenCache) (now : Int)
    (o : netOracle) (a : token) (u : UserData) (tok : token)
    (hp : 0 < tokenString.length) (hv : 0 < verifier.length)
    (hhit : (cache.getToken tokenString now).1 = some tok)
    (ha : o.accessLeg = .ok a) (hu : o.userLeg = .ok u) :
    (ProcessResponse cfg tokenString verifier cache now o).err = none
    ∧ (ProcessResponse cfg tokenString verifier cache now o).accessCalls = 1
    ∧ (ProcessResponse cfg tokenString verifier cache now o).userInfoCalls = 1
    ∧ (ProcessResponse cfg tokenString verifier cache now o).user.OAuthVersion
        = "1.0"
    ∧ (ProcessResponse cfg tokenString verifier cache now o).user.OAuthToken
        = a.token
    ∧ (ProcessResponse cfg tokenString verifier cache now o).user.OAuthTokenType
        = "Access Token"
    ∧ (ProcessResponse cfg tokenString verifier cache now o).user.OAuthProvider
        = goUpperStr cfg.ProviderName := by
  have hres : ProcessResponse cfg tokenString verifier cache now o =
      ⟨{ u with
          OAuthProvider := goUpperStr cfg.ProviderName
          OAuthVersion := OAuthVersion1
          OAuthToken := a.token
          OAuthTokenType := "Access Token" }, none,
        (cache.getToken tokenString now).2, 1, 1⟩ := by
    unfold ProcessResponse
    rw [if_pos ⟨hp, hv⟩]
    rcases hg : cache.getToken tokenString now with ⟨otok, cache2⟩
    have : otok = some tok := by rw [hg] at hhit; exact hhit
    subst this
    unfold fetchOAuthAccessToken
    rw [ha]
    unfold fetchUserInfo
    rw [hu]
  rw [hres]
  exact ⟨rfl, rfl, rfl, rfl, rfl, rfl, rfl⟩

/-- Witness for C9: a concrete successful round trip. -/
theorem ProcessResponse_roundtrip_witness :
    (ProcessResponse ⟨"twitter", "http://a"⟩ "tk" "v"
        ⟨0, 300, [⟨⟨"tk", "sec"⟩, 0⟩]⟩ 1
        ⟨.error "unused", .ok ⟨"acc", "asec"⟩, .ok zeroUserData⟩).err = none
    ∧ (ProcessResponse ⟨"twitter", "http://a"⟩ "tk" "v"
        ⟨0, 300, [⟨⟨"tk", "sec"⟩, 0⟩]⟩ 1
        ⟨.error "unused", .ok ⟨"acc", "asec"⟩, .ok zeroUserData⟩).accessCalls = 1
    ∧ (ProcessResponse ⟨"twitter", "http://a"⟩ "tk" "v"
        ⟨0, 300, [⟨⟨"tk", "sec"⟩, 0⟩]⟩ 1
        ⟨.error "unused", .ok ⟨"acc", "asec"⟩, .ok zeroUserData⟩).userInfoCalls = 1
    ∧ (ProcessResponse ⟨"twitter", "http://a"⟩ "tk" "v"
        ⟨0, 300, [⟨⟨"tk", "sec"⟩, 0⟩]⟩ 1
        ⟨.error "unused", .ok ⟨"acc", "asec"⟩, .ok zeroUserData⟩).user.OAuthVersion
        = "1.0"
    ∧ (ProcessResponse ⟨"twitter", "http://a"⟩ "tk" "v"
        ⟨0, 300, [⟨⟨"tk", "sec"⟩, 0⟩]⟩ 1
        ⟨.error "unused", .ok ⟨"acc", "asec"⟩, .ok zeroUserData⟩).user.OAuthToken
        = "acc"
    ∧ (ProcessResponse ⟨"twitter", "http://a"⟩ "tk" "v"
        ⟨0, 300, [⟨⟨"tk", "sec"⟩, 0⟩]⟩ 1
        ⟨.error "unused", .ok ⟨"acc", "asec"⟩,
          .ok zeroUserData⟩).user.OAuthTokenType = "Access Token"
    ∧ (ProcessResponse ⟨"twitter", "http://a"⟩ "tk" "v"
        ⟨0, 300, [⟨⟨"tk", "sec"⟩, 0⟩]⟩ 1
        ⟨.error "unused", .ok ⟨"acc", "asec"⟩,
          .ok zeroUserData⟩).user.OAuthProvider = "TWITTER" :=
  ProcessResponse_roundtrip ⟨"twitter", "http://a"⟩ "tk" "v"
    ⟨0, 300, [⟨⟨"tk", "sec"⟩, 0⟩]⟩ 1
    ⟨.error "unused", .ok ⟨"acc", "asec"⟩, .ok zeroUserData⟩
    ⟨"acc", "asec"⟩ zeroUserData ⟨"tk", "sec"⟩
    (by decide) (by decide) rfl rfl rfl

/-- C10: whenever the request-token leg succeeds with token `t`,
GetRedirectURL returns `AuthURL?oauth_token=<t>` with a nil error and the
cache state left by `addToken` — for every starting cache, so the result
seen by the caller is the same whether the insertion succeeded or
reported the cache-full failure (the boolean of `addToken` is
discarded). -/
theorem GetRedirectURL_ignores_cache_failure (cfg : OAuth1Config)
    (cache : tokenCache) (now : Int) (o : netOracle) (t : token)
    (h : o.requestLeg = .ok t) :
    GetRedirectURL cfg cache now o =
      (cfg.AuthURL ++ "?oauth_token=" ++ t.token, none,
        (cache.addToken t now).2) := by
  unfold GetRedirectURL
  rw [h]

/-- Witness for C10 on a capacity-0 cache, where the insertion does report
the cache-full failure and the caller still receives the redirect URL
with a nil error. -/
theorem GetRedirectURL_ignores_cache_failure_witness :
    (GetRedirectURL ⟨"P", "http://a"⟩ (newTokenCache 0 0) 0
        ⟨.ok ⟨"tk", "sec"⟩, .error "x", .error "y"⟩ =
      ("http://a" ++ "?oauth_token=" ++ "tk", none,
        ((newTokenCache 0 0).addToken ⟨"tk", "sec"⟩ 0).2))
    ∧ ((newTokenCache 0 0).addToken ⟨"tk", "sec"⟩ 0).1 = false :=
  ⟨GetRedirectURL_ignores_cache_failure ⟨"P", "http://a"⟩ (newTokenCache 0 0) 0
      ⟨.ok ⟨"tk", "sec"⟩, .error "x", .error "y"⟩ ⟨"tk", "sec"⟩ rfl,
    by decide⟩
